import Mathlib

/-!
Verification of the PCM/WAV audio utilities of `src/services/geminiService.ts`:
`decodeBase64`, `pcmToWav` and `decodeAudioData`.  Byte sequences are modelled
as `List Nat` whose elements are byte values (< 256); every store that the
platform truncates to a byte is modelled with an explicit `% 256`.
-/

deriving instance DecidableEq for Except

namespace Starlight

/-! ### The platform base64 decoder (`atob`, WHATWG forgiving-base64) -/

/-- ASCII whitespace stripped by forgiving-base64 decode: TAB, LF, FF, CR, SPACE. -/
def isB64Ws (c : Char) : Bool :=
  c = ' ' || c = '\t' || c = '\n' || c = '\x0c' || c = '\r'

/-- Position of a character in the base64 alphabet
`A-Z a-z 0-9 + /`, or `none` for a character outside the alphabet. -/
def b64Index (c : Char) : Option Nat :=
  if 65 ≤ c.toNat ∧ c.toNat ≤ 90 then some (c.toNat - 65)
  else if 97 ≤ c.toNat ∧ c.toNat ≤ 122 then some (c.toNat - 97 + 26)
  else if 48 ≤ c.toNat ∧ c.toNat ≤ 57 then some (c.toNat - 48 + 52)
  else if c = '+' then some 62
  else if c = '/' then some 63
  else none

/-- Remove one or two leading `=` code points (the reversed view of removing
trailing padding). -/
def dropLeadingEq : List Char → List Char
  | c1 :: c2 :: rest =>
      if c1 = '=' then (if c2 = '=' then rest else c2 :: rest) else c1 :: c2 :: rest
  | [c1] => if c1 = '=' then [] else [c1]
  | [] => []

/-- Step 2 of forgiving-base64: if the data ends with one or two `=`
code points, remove them. -/
def dropTrailingEq (l : List Char) : List Char :=
  (dropLeadingEq l.reverse).reverse

/-- Map every character to its base64 alphabet index; `none` as soon as a
character outside the alphabet occurs (step 4 of forgiving-base64). -/
def mapB64 : List Char → Option (List Nat)
  | [] => some []
  | c :: cs => (b64Index c).bind (fun i => (mapB64 cs).map (fun is => i :: is))

/-- Turn a sequence of 6-bit alphabet indices into bytes: each full group of
four indices yields three bytes; a trailing group of two yields one byte and a
trailing group of three yields two bytes, discarding the dangling low bits
(step 5 of forgiving-base64).  A dangling single index cannot occur because
lengths `≡ 1 (mod 4)` are rejected beforehand. -/
def b64DecodeIndices : List Nat → Option (List Nat)
  | [] => some []
  | [_] => none
  | [a, b] => some [a * 4 + b / 16]
  | [a, b, c] => some [a * 4 + b / 16, b % 16 * 16 + c / 4]
  | a :: b :: c :: d :: rest =>
      (b64DecodeIndices rest).map
        (fun tl => (a * 4 + b / 16) :: (b % 16 * 16 + c / 4) :: (c % 4 * 64 + d) :: tl)

/-- The platform `atob`: forgiving-base64 decode of a string, returning the
code points of the resulting binary string (each < 256), or `none` when the
platform decoder throws `InvalidCharacterError`. -/
def atob (s : String) : Option (List Nat) :=
  let data0 := s.data.filter (fun c => !(isB64Ws c))
  let data := if data0.length % 4 = 0 then dropTrailingEq data0 else data0
  if data.length % 4 = 1 then none
  else (mapB64 data).bind b64DecodeIndices

/-- The data forgiving-base64 actually decodes: the input with ASCII
whitespace removed and, when the remaining length is a multiple of four,
canonical trailing `=` padding removed (steps 1-2 of the algorithm; `atob`
is exactly the remaining steps run on this list). -/
def b64Cleaned (s : String) : List Char :=
  let data0 := s.data.filter (fun c => !(isB64Ws c))
  if data0.length % 4 = 0 then dropTrailingEq data0 else data0

/-! ### Typed arrays -/

/-- A `Uint8Array`: a view of `length` bytes starting at `byteOffset` of an
underlying `ArrayBuffer` (`buffer`). -/
structure Uint8ArrayView where
  buffer : List Nat
  byteOffset : Nat
  length : Nat
deriving DecidableEq, Repr

/-- The bytes visible through a `Uint8Array` view. -/
def viewBytes (v : Uint8ArrayView) : List Nat :=
  (v.buffer.drop v.byteOffset).take v.length

/-- An index-by-index store loop `buf[i] = f x` over a destination buffer, as
performed by the copy loops of the source. -/
def setLoop {α β : Type} (f : β → α) : List α → Nat → List β → List α
  | buf, _, [] => buf
  | buf, i, x :: xs => setLoop f (buf.set i (f x)) (i + 1) xs

/-- Source `decodeBase64` (geminiService.ts:213-220): run the platform `atob`,
allocate a fresh `Uint8Array` of the binary string's length and store each
character code into it (`Uint8Array` stores truncate to a byte, `% 256`).
Returns the fresh full-span view, or `none` when `atob` throws. -/
def decodeBase64 (base64 : String) : Option Uint8ArrayView :=
  (atob base64).map
    (fun binaryString =>
      { buffer := setLoop (fun code => code % 256)
          (List.replicate binaryString.length 0) 0 binaryString
        byteOffset := 0
        length := binaryString.length })

/-! ### DataView writes and the WAV encoder -/

/-- Store one character code as a byte, as `view.setUint8(off, s.charCodeAt i)`
does (char codes are truncated to a byte). -/
def writeChars : List Nat → Nat → List Char → List Nat
  | buf, _, [] => buf
  | buf, off, c :: cs => writeChars (buf.set off (c.toNat % 256)) (off + 1) cs

/-- Source helper `writeString`: store the character codes of `s` at
consecutive offsets starting at `off`. -/
def writeString (buf : List Nat) (off : Nat) (s : String) : List Nat :=
  writeChars buf off s.data

/-- `DataView.setUint16(off, v, true)`: the value is converted to a 16-bit
unsigned integer and stored little-endian; the low byte of that conversion is
`v % 256` and the high byte is `v / 256 % 256`. -/
def setUint16LE (buf : List Nat) (off v : Nat) : List Nat :=
  (buf.set off (v % 256)).set (off + 1) (v / 256 % 256)

/-- `DataView.setUint32(off, v, true)`: the value is converted to a 32-bit
unsigned integer and stored little-endian; byte `k` of that conversion is
`v / 256 ^ k % 256`. -/
def setUint32LE (buf : List Nat) (off v : Nat) : List Nat :=
  (((buf.set off (v % 256)).set (off + 1) (v / 256 % 256)).set
      (off + 2) (v / 65536 % 256)).set (off + 3) (v / 16777216 % 256)

/-- `Uint8Array.prototype.set(data)` on a view starting at `off` of `buf`:
copy `data` over the bytes at `off .. off + data.length - 1`.  In `pcmToWav`
the copy always fits inside the buffer. -/
def typedArraySet (buf : List Nat) (off : Nat) (data : List Nat) : List Nat :=
  buf.take off ++ data ++ buf.drop (off + data.length)

/-- The thirteen header writes of `pcmToWav` (geminiService.ts:166-178), in
source order, on a buffer whose payload is `pcm` long. -/
def wavHeaderFill (pcm : List Nat) (sampleRate : Nat) (buffer : List Nat) : List Nat :=
  let b1 := writeString buffer 0 "RIFF"
  let b2 := setUint32LE b1 4 (32 + pcm.length)
  let b3 := writeString b2 8 "WAVE"
  let b4 := writeString b3 12 "fmt "
  let b5 := setUint32LE b4 16 16
  let b6 := setUint16LE b5 20 1
  let b7 := setUint16LE b6 22 1
  let b8 := setUint32LE b7 24 sampleRate
  let b9 := setUint32LE b8 28 (sampleRate * 2)
  let b10 := setUint16LE b9 32 2
  let b11 := setUint16LE b10 34 16
  let b12 := writeString b11 36 "data"
  setUint32LE b12 40 pcm.length

/-- Fill a WAV buffer: header writes followed by the payload copy
`new Uint8Array(buffer, 44).set(pcmData)`. -/
def wavFill (pcm : List Nat) (sampleRate : Nat) (buffer : List Nat) : List Nat :=
  typedArraySet (wavHeaderFill pcm sampleRate buffer) 44 pcm

/-- The bytes of the blob `pcmToWav` builds for decoded payload `pcm`: a fresh
zero-filled `ArrayBuffer` of `44 + pcm.length` bytes, header written, payload
copied at offset 44. -/
def pcmToWavBytes (pcm : List Nat) (sampleRate : Nat) : List Nat :=
  wavFill pcm sampleRate (List.replicate (44 + pcm.length) 0)

/-- Source `pcmToWav` (geminiService.ts:155-184): decode the base64 input and
build the WAV blob (returned here as its byte contents; the real function
wraps exactly these bytes in a Blob of type audio/wav).  `none` models the
`atob` exception propagating out of `decodeBase64`. -/
def pcmToWav (base64Pcm : String) (sampleRate : Nat := 24000) : Option (List Nat) :=
  match decodeBase64 base64Pcm with
  | none => none
  | some pcmData => some (pcmToWavBytes (viewBytes pcmData) sampleRate)

/-! ### Readers used to state header properties -/

/-- Character codes of an ASCII string, used to state the header layout. -/
def asciiBytes (s : String) : List Nat := s.data.map Char.toNat

/-- Little-endian bytes of a 16-bit value (for `v < 2 ^ 16`, exactly the
two-byte little-endian encoding of `v`). -/
def le16 (v : Nat) : List Nat := [v % 256, v / 256 % 256]

/-- Little-endian bytes of a 32-bit value (for `v < 2 ^ 32`, exactly the
four-byte little-endian encoding of `v`). -/
def le32 (v : Nat) : List Nat :=
  [v % 256, v / 256 % 256, v / 65536 % 256, v / 16777216 % 256]

/-- The 44 header bytes `pcmToWav` writes for a payload of `n` bytes at
sample rate `r`. -/
def wavHeader (n r : Nat) : List Nat :=
  asciiBytes "RIFF" ++ le32 (32 + n) ++ asciiBytes "WAVE" ++ asciiBytes "fmt " ++
    le32 16 ++ le16 1 ++ le16 1 ++ le32 r ++ le32 (r * 2) ++ le16 2 ++ le16 16 ++
    asciiBytes "data" ++ le32 n

/-- Read the 16-bit little-endian unsigned integer at offset `off` of a blob. -/
def readUint16LE (blob : List Nat) (off : Nat) : Nat :=
  blob.getD off 0 + blob.getD (off + 1) 0 * 256

/-- Read the 32-bit little-endian unsigned integer at offset `off` of a blob. -/
def readUint32LE (blob : List Nat) (off : Nat) : Nat :=
  blob.getD off 0 + blob.getD (off + 1) 0 * 256 + blob.getD (off + 2) 0 * 65536 +
    blob.getD (off + 3) 0 * 16777216

/-! ### The PCM normalizer `decodeAudioData` -/

/-- Interpret two bytes as a 16-bit little-endian signed integer, as the
elements of an `Int16Array` over the buffer are read (on the little-endian
platforms browsers run on). -/
def toInt16 (b0 b1 : Nat) : Int :=
  let u := b0 % 256 + 256 * (b1 % 256)
  if u < 32768 then (u : Int) else (u : Int) - 65536

/-- The elements of `new Int16Array(buffer)`: consecutive byte pairs read as
16-bit little-endian signed integers. -/
def int16sOfBuffer : List Nat → List Int
  | [] => []
  | [_] => []
  | b0 :: b1 :: rest => toInt16 b0 b1 :: int16sOfBuffer rest

/-- The normalization `dataInt16[i] / 32768.0`.  Every 16-bit sample divided
by the power of two 32768 is exactly representable in binary floating point
(both float64 and float32), so the rational value models the float
computation exactly. -/
def toSample (s : Int) : ℚ := (s : ℚ) / 32768

/-- A Web Audio `AudioBuffer` as produced by `ctx.createBuffer` and filled by
the source: channel count, frame count, sample rate and the single channel's
samples. -/
structure AudioBuffer where
  numberOfChannels : Nat
  length : Nat
  sampleRate : Nat
  channelData : List ℚ
deriving DecidableEq, Repr

/-- Source `decodeAudioData` (geminiService.ts:225-233): build
`new Int16Array(data.buffer)` — which throws a `RangeError` when the
underlying buffer's byte length is not a multiple of 2 — then
`ctx.createBuffer(1, dataInt16.length, 24000)` — which throws a
`NotSupportedError` when the requested length is zero — and fill the single
channel with `dataInt16[i] / 32768.0`.  The `AudioContext` argument is used
only to allocate the buffer and does not influence the result. -/
def decodeAudioData (data : Uint8ArrayView) : Except String AudioBuffer :=
  if data.buffer.length % 2 = 0 then
    if (int16sOfBuffer data.buffer).length = 0 then .error "NotSupportedError"
    else
      .ok { numberOfChannels := 1
            length := (int16sOfBuffer data.buffer).length
            sampleRate := 24000
            channelData := setLoop toSample
              (List.replicate (int16sOfBuffer data.buffer).length 0) 0
              (int16sOfBuffer data.buffer) }
  else .error "RangeError"

/-! ### Standard base64 encoding (to state the round-trip claim)

The repository never encodes base64 — the upstream speech service does — so
the encoder below is the standard RFC 4648 encoding with padding, used only
to quantify over "the base64 encoding of B" in the round-trip property. -/

/-- The base64 alphabet in index order. -/
def b64Alphabet : List Char :=
  "ABCDEFGHIJKLMNOPQRSTUVWXYZabcdefghijklmnopqrstuvwxyz0123456789+/".data

/-- The alphabet character for a 6-bit index. -/
def b64Char (i : Nat) : Char := b64Alphabet.getD i 'A'

/-- Standard base64 encoding of a byte list: each group of three bytes yields
four characters; a trailing group of one byte yields two characters and `==`,
a trailing group of two yields three characters and `=`. -/
def b64EncodeChunks : List Nat → List Char
  | [] => []
  | [b0] => [b64Char (b0 / 4), b64Char (b0 % 4 * 16), '=', '=']
  | [b0, b1] => [b64Char (b0 / 4), b64Char (b0 % 4 * 16 + b1 / 16), b64Char (b1 % 16 * 4), '=']
  | b0 :: b1 :: b2 :: rest =>
      b64Char (b0 / 4) :: b64Char (b0 % 4 * 16 + b1 / 16) ::
        b64Char (b1 % 16 * 4 + b2 / 64) :: b64Char (b2 % 64) :: b64EncodeChunks rest

/-- The standard (padded) base64 encoding of a byte sequence. -/
def base64Encode (bytes : List Nat) : String := ⟨b64EncodeChunks bytes⟩

/-! ### A heap model for the purity claim

Each call of the source functions allocates fresh buffers (`new ArrayBuffer`,
`ctx.createBuffer`) and writes only into them.  To state that, the functions
are re-run against an explicit heap of previously allocated byte buffers and
float (channel) buffers; fresh allocation appends to the heap. -/

/-- The process-wide mutable state visible to the two functions: every
allocated `ArrayBuffer` (byte buffers) and every allocated audio channel
buffer (float buffers). -/
structure World where
  byteBufs : List (List Nat)
  floatBufs : List (List ℚ)
deriving DecidableEq, Repr

/-- Allocate a fresh zero-filled byte buffer of `n` bytes; returns its
address (`new ArrayBuffer(n)`). -/
def allocByteBuf (w : World) (n : Nat) : World × Nat :=
  (⟨w.byteBufs ++ [List.replicate n 0], w.floatBufs⟩, w.byteBufs.length)

/-- Apply a sequence of writes to the byte buffer at address `a`. -/
def writeByteBuf (w : World) (a : Nat) (f : List Nat → List Nat) : World :=
  ⟨w.byteBufs.set a (f (w.byteBufs.getD a [])), w.floatBufs⟩

/-- Read the byte buffer at address `a`. -/
def readByteBuf (w : World) (a : Nat) : List Nat :=
  w.byteBufs.getD a []

/-- Allocate a fresh zero-filled channel buffer of `n` samples
(`ctx.createBuffer`, whose channels start silent). -/
def allocFloatBuf (w : World) (n : Nat) : World × Nat :=
  (⟨w.byteBufs, w.floatBufs ++ [List.replicate n 0]⟩, w.floatBufs.length)

/-- Apply a sequence of writes to the channel buffer at address `a`. -/
def writeFloatBuf (w : World) (a : Nat) (f : List ℚ → List ℚ) : World :=
  ⟨w.byteBufs, w.floatBufs.set a (f (w.floatBufs.getD a []))⟩

/-- Read the channel buffer at address `a`. -/
def readFloatBuf (w : World) (a : Nat) : List ℚ :=
  w.floatBufs.getD a []

/-- `pcmToWav` run against an explicit heap: decode the input, allocate the
fresh `ArrayBuffer(44 + length)`, perform the header writes and the payload
copy on it, and read the blob back out.  The steps are those of
geminiService.ts:155-184 with the allocation and the writes made explicit. -/
def pcmToWavH (w : World) (base64Pcm : String) (sampleRate : Nat) :
    World × Option (List Nat) :=
  match decodeBase64 base64Pcm with
  | none => (w, none)
  | some pcmData =>
    let pcm := viewBytes pcmData
    let wa := allocByteBuf w (44 + pcm.length)
    let w2 := writeByteBuf wa.1 wa.2 (wavFill pcm sampleRate)
    (w2, some (readByteBuf w2 wa.2))

/-- `decodeAudioData` run against an explicit heap: the `Int16Array` view
throws on an odd-length buffer, `createBuffer` throws on a zero sample count
and otherwise allocates a fresh silent channel buffer, which the loop then
fills. -/
def decodeAudioDataH (w : World) (data : Uint8ArrayView) :
    World × Except String AudioBuffer :=
  if data.buffer.length % 2 = 0 then
    if (int16sOfBuffer data.buffer).length = 0 then (w, .error "NotSupportedError")
    else
      (writeFloatBuf (allocFloatBuf w (int16sOfBuffer data.buffer).length).1
          (allocFloatBuf w (int16sOfBuffer data.buffer).length).2
          (fun chan => setLoop toSample chan 0 (int16sOfBuffer data.buffer)),
        .ok { numberOfChannels := 1
              length := (int16sOfBuffer data.buffer).length
              sampleRate := 24000
              channelData := readFloatBuf
                (writeFloatBuf (allocFloatBuf w (int16sOfBuffer data.buffer).length).1
                  (allocFloatBuf w (int16sOfBuffer data.buffer).length).2
                  (fun chan => setLoop toSample chan 0 (int16sOfBuffer data.buffer)))
                (allocFloatBuf w (int16sOfBuffer data.buffer).length).2 })
  else (w, .error "RangeError")

/-! ### Structural lemmas about the DataView writes -/

theorem length_writeChars : ∀ (cs : List Char) (buf : List Nat) (off : Nat),
    (writeChars buf off cs).length = buf.length
  | [], _, _ => rfl
  | c :: cs, buf, off => by
    rw [writeChars, length_writeChars cs, List.length_set]

theorem length_setUint16LE (buf : List Nat) (off v : Nat) :
    (setUint16LE buf off v).length = buf.length := by
  simp [setUint16LE]

theorem length_setUint32LE (buf : List Nat) (off v : Nat) :
    (setUint32LE buf off v).length = buf.length := by
  simp [setUint32LE]

theorem length_wavHeaderFill (pcm : List Nat) (r : Nat) (buf : List Nat) :
    (wavHeaderFill pcm r buf).length = buf.length := by
  simp [wavHeaderFill, writeString, length_writeChars, length_setUint16LE, length_setUint32LE]

theorem take_writeChars : ∀ (cs : List Char) (buf : List Nat) (off n : Nat),
    (writeChars buf off cs).take n = writeChars (buf.take n) off cs
  | [], _, _, _ => rfl
  | c :: cs, buf, off, n => by
    rw [writeChars, take_writeChars cs, List.set_take, writeChars]

theorem take_setUint16LE (buf : List Nat) (off v n : Nat) :
    (setUint16LE buf off v).take n = setUint16LE (buf.take n) off v := by
  simp [setUint16LE, List.set_take]

theorem take_setUint32LE (buf : List Nat) (off v n : Nat) :
    (setUint32LE buf off v).take n = setUint32LE (buf.take n) off v := by
  simp [setUint32LE, List.set_take]

theorem take_wavHeaderFill (pcm : List Nat) (r : Nat) (buf : List Nat) (n : Nat) :
    (wavHeaderFill pcm r buf).take n = wavHeaderFill pcm r (buf.take n) := by
  simp [wavHeaderFill, writeString, take_writeChars, take_setUint16LE, take_setUint32LE]

/-- The header bytes as one flat list, for cheap positional reasoning. -/
theorem wavHeader_flat (n r : Nat) :
    wavHeader n r =
    [82, 73, 70, 70,
     (32 + n) % 256, (32 + n) / 256 % 256, (32 + n) / 65536 % 256, (32 + n) / 16777216 % 256,
     87, 65, 86, 69,
     102, 109, 116, 32,
     16, 0, 0, 0,
     1, 0, 1, 0,
     r % 256, r / 256 % 256, r / 65536 % 256, r / 16777216 % 256,
     (r * 2) % 256, (r * 2) / 256 % 256, (r * 2) / 65536 % 256, (r * 2) / 16777216 % 256,
     2, 0, 16, 0,
     100, 97, 116, 97,
     n % 256, n / 256 % 256, n / 65536 % 256, n / 16777216 % 256] := rfl

/-- Writing the header into a bare 44-byte zero buffer produces exactly the
44 header bytes. -/
theorem wavHeaderFill_replicate (B : List Nat) (r : Nat) :
    wavHeaderFill B r (List.replicate 44 0) = wavHeader B.length r := by
  have h1 : writeString (List.replicate 44 0) 0 "RIFF" =
      [82, 73, 70, 70] ++ List.replicate 40 0 := rfl
  have h2 : setUint32LE ([82, 73, 70, 70] ++ List.replicate 40 0) 4 (32 + B.length) =
      [82, 73, 70, 70, (32 + B.length) % 256, (32 + B.length) / 256 % 256, (32 + B.length) / 65536 % 256, (32 + B.length) / 16777216 % 256] ++ List.replicate 36 0 := rfl
  have h3 : writeString ([82, 73, 70, 70, (32 + B.length) % 256, (32 + B.length) / 256 % 256, (32 + B.length) / 65536 % 256, (32 + B.length) / 16777216 % 256] ++ List.replicate 36 0) 8 "WAVE" =
      [82, 73, 70, 70, (32 + B.length) % 256, (32 + B.length) / 256 % 256, (32 + B.length) / 65536 % 256, (32 + B.length) / 16777216 % 256, 87, 65, 86, 69] ++ List.replicate 32 0 := rfl
  have h4 : writeString ([82, 73, 70, 70, (32 + B.length) % 256, (32 + B.length) / 256 % 256, (32 + B.length) / 65536 % 256, (32 + B.length) / 16777216 % 256, 87, 65, 86, 69] ++ List.replicate 32 0) 12 "fmt " =
      [82, 73, 70, 70, (32 + B.length) % 256, (32 + B.length) / 256 % 256, (32 + B.length) / 65536 % 256, (32 + B.length) / 16777216 % 256, 87, 65, 86, 69, 102, 109, 116, 32] ++ List.replicate 28 0 := rfl
  have h5 : setUint32LE ([82, 73, 70, 70, (32 + B.length) % 256, (32 + B.length) / 256 % 256, (32 + B.length) / 65536 % 256, (32 + B.length) / 16777216 % 256, 87, 65, 86, 69, 102, 109, 116, 32] ++ List.replicate 28 0) 16 16 =
      [82, 73, 70, 70, (32 + B.length) % 256, (32 + B.length) / 256 % 256, (32 + B.length) / 65536 % 256, (32 + B.length) / 16777216 % 256, 87, 65, 86, 69, 102, 109, 116, 32, 16, 0, 0, 0] ++ List.replicate 24 0 := rfl
  have h6 : setUint16LE ([82, 73, 70, 70, (32 + B.length) % 256, (32 + B.length) / 256 % 256, (32 + B.length) / 65536 % 256, (32 + B.length) / 16777216 % 256, 87, 65, 86, 69, 102, 109, 116, 32, 16, 0, 0, 0] ++ List.replicate 24 0) 20 1 =
      [82, 73, 70, 70, (32 + B.length) % 256, (32 + B.length) / 256 % 256, (32 + B.length) / 65536 % 256, (32 + B.length) / 16777216 % 256, 87, 65, 86, 69, 102, 109, 116, 32, 16, 0, 0, 0, 1, 0] ++ List.replicate 22 0 := rfl
  have h7 : setUint16LE ([82, 73, 70, 70, (32 + B.length) % 256, (32 + B.length) / 256 % 256, (32 + B.length) / 65536 % 256, (32 + B.length) / 16777216 % 256, 87, 65, 86, 69, 102, 109, 116, 32, 16, 0, 0, 0, 1, 0] ++ List.replicate 22 0) 22 1 =
      [82, 73, 70, 70, (32 + B.length) % 256, (32 + B.length) / 256 % 256, (32 + B.length) / 65536 % 256, (32 + B.length) / 16777216 % 256, 87, 65, 86, 69, 102, 109, 116, 32, 16, 0, 0, 0, 1, 0, 1, 0] ++ List.replicate 20 0 := rfl
  have h8 : setUint32LE ([82, 73, 70, 70, (32 + B.length) % 256, (32 + B.length) / 256 % 256, (32 + B.length) / 65536 % 256, (32 + B.length) / 16777216 % 256, 87, 65, 86, 69, 102, 109, 116, 32, 16, 0, 0, 0, 1, 0, 1, 0] ++ List.replicate 20 0) 24 r =
      [82, 73, 70, 70, (32 + B.length) % 256, (32 + B.length) / 256 % 256, (32 + B.length) / 65536 % 256, (32 + B.length) / 16777216 % 256, 87, 65, 86, 69, 102, 109, 116, 32, 16, 0, 0, 0, 1, 0, 1, 0, r % 256, r / 256 % 256, r / 65536 % 256, r / 16777216 % 256] ++ List.replicate 16 0 := rfl
  have h9 : setUint32LE ([82, 73, 70, 70, (32 + B.length) % 256, (32 + B.length) / 256 % 256, (32 + B.length) / 65536 % 256, (32 + B.length) / 16777216 % 256, 87, 65, 86, 69, 102, 109, 116, 32, 16, 0, 0, 0, 1, 0, 1, 0, r % 256, r / 256 % 256, r / 65536 % 256, r / 16777216 % 256] ++ List.replicate 16 0) 28 (r * 2) =
      [82, 73, 70, 70, (32 + B.length) % 256, (32 + B.length) / 256 % 256, (32 + B.length) / 65536 % 256, (32 + B.length) / 16777216 % 256, 87, 65, 86, 69, 102, 109, 116, 32, 16, 0, 0, 0, 1, 0, 1, 0, r % 256, r / 256 % 256, r / 65536 % 256, r / 16777216 % 256, (r * 2) % 256, (r * 2) / 256 % 256, (r * 2) / 65536 % 256, (r * 2) / 16777216 % 256] ++ List.replicate 12 0 := rfl
  have h10 : setUint16LE ([82, 73, 70, 70, (32 + B.length) % 256, (32 + B.length) / 256 % 256, (32 + B.length) / 65536 % 256, (32 + B.length) / 16777216 % 256, 87, 65, 86, 69, 102, 109, 116, 32, 16, 0, 0, 0, 1, 0, 1, 0, r % 256, r / 256 % 256, r / 65536 % 256, r / 16777216 % 256, (r * 2) % 256, (r * 2) / 256 % 256, (r * 2) / 65536 % 256, (r * 2) / 16777216 % 256] ++ List.replicate 12 0) 32 2 =
      [82, 73, 70, 70, (32 + B.length) % 256, (32 + B.length) / 256 % 256, (32 + B.length) / 65536 % 256, (32 + B.length) / 16777216 % 256, 87, 65, 86, 69, 102, 109, 116, 32, 16, 0, 0, 0, 1, 0, 1, 0, r % 256, r / 256 % 256, r / 65536 % 256, r / 16777216 % 256, (r * 2) % 256, (r * 2) / 256 % 256, (r * 2) / 65536 % 256, (r * 2) / 16777216 % 256, 2, 0] ++ List.replicate 10 0 := rfl
  have h11 : setUint16LE ([82, 73, 70, 70, (32 + B.length) % 256, (32 + B.length) / 256 % 256, (32 + B.length) / 65536 % 256, (32 + B.length) / 16777216 % 256, 87, 65, 86, 69, 102, 109, 116, 32, 16, 0, 0, 0, 1, 0, 1, 0, r % 256, r / 256 % 256, r / 65536 % 256, r / 16777216 % 256, (r * 2) % 256, (r * 2) / 256 % 256, (r * 2) / 65536 % 256, (r * 2) / 16777216 % 256, 2, 0] ++ List.replicate 10 0) 34 16 =
      [82, 73, 70, 70, (32 + B.length) % 256, (32 + B.length) / 256 % 256, (32 + B.length) / 65536 % 256, (32 + B.length) / 16777216 % 256, 87, 65, 86, 69, 102, 109, 116, 32, 16, 0, 0, 0, 1, 0, 1, 0, r % 256, r / 256 % 256, r / 65536 % 256, r / 16777216 % 256, (r * 2) % 256, (r * 2) / 256 % 256, (r * 2) / 65536 % 256, (r * 2) / 16777216 % 256, 2, 0, 16, 0] ++ List.replicate 8 0 := rfl
  have h12 : writeString ([82, 73, 70, 70, (32 + B.length) % 256, (32 + B.length) / 256 % 256, (32 + B.length) / 65536 % 256, (32 + B.length) / 16777216 % 256, 87, 65, 86, 69, 102, 109, 116, 32, 16, 0, 0, 0, 1, 0, 1, 0, r % 256, r / 256 % 256, r / 65536 % 256, r / 16777216 % 256, (r * 2) % 256, (r * 2) / 256 % 256, (r * 2) / 65536 % 256, (r * 2) / 16777216 % 256, 2, 0, 16, 0] ++ List.replicate 8 0) 36 "data" =
      [82, 73, 70, 70, (32 + B.length) % 256, (32 + B.length) / 256 % 256, (32 + B.length) / 65536 % 256, (32 + B.length) / 16777216 % 256, 87, 65, 86, 69, 102, 109, 116, 32, 16, 0, 0, 0, 1, 0, 1, 0, r % 256, r / 256 % 256, r / 65536 % 256, r / 16777216 % 256, (r * 2) % 256, (r * 2) / 256 % 256, (r * 2) / 65536 % 256, (r * 2) / 16777216 % 256, 2, 0, 16, 0, 100, 97, 116, 97] ++ List.replicate 4 0 := rfl
  have h13 : setUint32LE ([82, 73, 70, 70, (32 + B.length) % 256, (32 + B.length) / 256 % 256, (32 + B.length) / 65536 % 256, (32 + B.length) / 16777216 % 256, 87, 65, 86, 69, 102, 109, 116, 32, 16, 0, 0, 0, 1, 0, 1, 0, r % 256, r / 256 % 256, r / 65536 % 256, r / 16777216 % 256, (r * 2) % 256, (r * 2) / 256 % 256, (r * 2) / 65536 % 256, (r * 2) / 16777216 % 256, 2, 0, 16, 0, 100, 97, 116, 97] ++ List.replicate 4 0) 40 B.length =
      [82, 73, 70, 70, (32 + B.length) % 256, (32 + B.length) / 256 % 256, (32 + B.length) / 65536 % 256, (32 + B.length) / 16777216 % 256, 87, 65, 86, 69, 102, 109, 116, 32, 16, 0, 0, 0, 1, 0, 1, 0, r % 256, r / 256 % 256, r / 65536 % 256, r / 16777216 % 256, (r * 2) % 256, (r * 2) / 256 % 256, (r * 2) / 65536 % 256, (r * 2) / 16777216 % 256, 2, 0, 16, 0, 100, 97, 116, 97, B.length % 256, B.length / 256 % 256, B.length / 65536 % 256, B.length / 16777216 % 256] := rfl
  have hW : wavHeader B.length r =
      [82, 73, 70, 70,
     (32 + B.length) % 256, (32 + B.length) / 256 % 256, (32 + B.length) / 65536 % 256, (32 + B.length) / 16777216 % 256,
     87, 65, 86, 69,
     102, 109, 116, 32,
     16, 0, 0, 0,
     1, 0, 1, 0,
     r % 256, r / 256 % 256, r / 65536 % 256, r / 16777216 % 256,
     (r * 2) % 256, (r * 2) / 256 % 256, (r * 2) / 65536 % 256, (r * 2) / 16777216 % 256,
     2, 0, 16, 0,
     100, 97, 116, 97,
     B.length % 256, B.length / 256 % 256, B.length / 65536 % 256, B.length / 16777216 % 256] := wavHeader_flat B.length r
  simp only [wavHeaderFill]
  rw [h1, h2, h3, h4, h5, h6, h7, h8, h9, h10, h11, h12, h13, hW]

/-- The first 44 bytes of the encoder's blob are the WAV header. -/
theorem pcmToWavBytes_take44 (B : List Nat) (r : Nat) :
    (pcmToWavBytes B r).take 44 = wavHeader B.length r := by
  have hHW : (wavHeaderFill B r (List.replicate (44 + B.length) 0)).length = 44 + B.length := by
    rw [length_wavHeaderFill, List.length_replicate]
  have h1 : ((wavHeaderFill B r (List.replicate (44 + B.length) 0)).take 44).length = 44 := by
    rw [List.length_take, hHW]; omega
  rw [pcmToWavBytes, wavFill, typedArraySet, List.append_assoc, List.take_left' h1,
    take_wavHeaderFill, List.take_replicate, Nat.min_def, if_pos (by omega),
    wavHeaderFill_replicate]

/-- The bytes of the encoder's blob from offset 44 on are exactly the payload. -/
theorem pcmToWavBytes_drop44 (B : List Nat) (r : Nat) :
    (pcmToWavBytes B r).drop 44 = B := by
  have hHW : (wavHeaderFill B r (List.replicate (44 + B.length) 0)).length = 44 + B.length := by
    rw [length_wavHeaderFill, List.length_replicate]
  have h1 : ((wavHeaderFill B r (List.replicate (44 + B.length) 0)).take 44).length = 44 := by
    rw [List.length_take, hHW]; omega
  rw [pcmToWavBytes, wavFill, typedArraySet, List.append_assoc, List.drop_left' h1,
    List.drop_eq_nil_of_le hHW.le, List.append_nil]

/-- The encoder's blob is the header followed by the untouched payload. -/
theorem pcmToWavBytes_eq (B : List Nat) (r : Nat) :
    pcmToWavBytes B r = wavHeader B.length r ++ B := by
  conv_lhs => rw [← List.take_append_drop 44 (pcmToWavBytes B r)]
  rw [pcmToWavBytes_take44, pcmToWavBytes_drop44]

theorem length_wavHeader (n r : Nat) : (wavHeader n r).length = 44 := rfl

theorem length_pcmToWavBytes (B : List Nat) (r : Nat) :
    (pcmToWavBytes B r).length = 44 + B.length := by
  rw [pcmToWavBytes_eq, List.length_append, length_wavHeader]

/-! ### Reading header fields back -/

theorem readUint32LE_wavHeader_4 (n r : Nat) (t : List Nat) (h : 32 + n < 4294967296) :
    readUint32LE (wavHeader n r ++ t) 4 = 32 + n := by
  rw [wavHeader_flat]
  show (32 + n) % 256 + (32 + n) / 256 % 256 * 256 + (32 + n) / 65536 % 256 * 65536 +
      (32 + n) / 16777216 % 256 * 16777216 = 32 + n
  omega

theorem readUint32LE_wavHeader_24 (n r : Nat) (t : List Nat) (h : r < 4294967296) :
    readUint32LE (wavHeader n r ++ t) 24 = r := by
  rw [wavHeader_flat]
  show r % 256 + r / 256 % 256 * 256 + r / 65536 % 256 * 65536 +
      r / 16777216 % 256 * 16777216 = r
  omega

theorem readUint32LE_wavHeader_28 (n r : Nat) (t : List Nat) (h : r * 2 < 4294967296) :
    readUint32LE (wavHeader n r ++ t) 28 = r * 2 := by
  rw [wavHeader_flat]
  show r * 2 % 256 + r * 2 / 256 % 256 * 256 + r * 2 / 65536 % 256 * 65536 +
      r * 2 / 16777216 % 256 * 16777216 = r * 2
  omega

theorem readUint32LE_wavHeader_40 (n r : Nat) (t : List Nat) (h : n < 4294967296) :
    readUint32LE (wavHeader n r ++ t) 40 = n := by
  rw [wavHeader_flat]
  show n % 256 + n / 256 % 256 * 256 + n / 65536 % 256 * 65536 +
      n / 16777216 % 256 * 16777216 = n
  omega

set_option maxRecDepth 8192 in
theorem readUint16LE_wavHeader_32 (n r : Nat) (t : List Nat) :
    readUint16LE (wavHeader n r ++ t) 32 = 2 := by
  rw [wavHeader_flat]; rfl

set_option maxRecDepth 8192 in
theorem readUint16LE_wavHeader_34 (n r : Nat) (t : List Nat) :
    readUint16LE (wavHeader n r ++ t) 34 = 16 := by
  rw [wavHeader_flat]; rfl

/-! ### Views produced by the base64 decoder -/

theorem length_setLoop {α β : Type} (f : β → α) :
    ∀ (xs : List β) (buf : List α) (i : Nat), (setLoop f buf i xs).length = buf.length
  | [], _, _ => rfl
  | x :: xs, buf, i => by
    rw [setLoop, length_setLoop f xs, List.length_set]

/-- Every view returned by `decodeBase64` is fresh and spans its whole
buffer: offset 0 and view length equal to the buffer length. -/
theorem decodeBase64_full (s : String) (v : Uint8ArrayView)
    (h : decodeBase64 s = some v) : v.byteOffset = 0 ∧ v.length = v.buffer.length := by
  rcases hA : atob s with _ | bs
  · rw [decodeBase64, hA] at h; cases h
  · rw [decodeBase64, hA, Option.map_some'] at h
    cases h
    exact ⟨rfl, by rw [length_setLoop, List.length_replicate]⟩

theorem viewBytes_full (v : Uint8ArrayView) (h0 : v.byteOffset = 0)
    (hl : v.length = v.buffer.length) : viewBytes v = v.buffer := by
  rw [viewBytes, h0, List.drop_zero, hl, List.take_length]

theorem pcmToWav_some (s : String) (v : Uint8ArrayView) (r : Nat)
    (h : decodeBase64 s = some v) :
    pcmToWav s r = some (pcmToWavBytes (viewBytes v) r) := by
  simp only [pcmToWav, h]

/-! ### Claims about the encoder -/

/-- C4: Header byte-exactness — for every payload `B` of `N` bytes and every
(32-bit representable) sample rate `r`, bytes 0-43 of the encoder's blob are
exactly ASCII `RIFF`, the 32-bit value `32 + N` little-endian, ASCII `WAVE`,
ASCII `fmt `, 16, 1 (PCM), 1 (mono), `r`, `r * 2`, 2, 16, ASCII `data` and
`N`, all multi-byte integers little-endian; reading the 32-bit fields back
yields exactly `32 + N`, `r`, `r * 2` and `N`. -/
theorem C4_header_bytes (B : List Nat) (r : Nat)
    (hr : r * 2 < 4294967296) (hn : 32 + B.length < 4294967296) :
    (pcmToWavBytes B r).take 44 =
      asciiBytes "RIFF" ++ le32 (32 + B.length) ++ asciiBytes "WAVE" ++
        asciiBytes "fmt " ++ le32 16 ++ le16 1 ++ le16 1 ++ le32 r ++ le32 (r * 2) ++
        le16 2 ++ le16 16 ++ asciiBytes "data" ++ le32 B.length
    ∧ readUint32LE (pcmToWavBytes B r) 4 = 32 + B.length
    ∧ readUint32LE (pcmToWavBytes B r) 24 = r
    ∧ readUint32LE (pcmToWavBytes B r) 28 = r * 2
    ∧ readUint32LE (pcmToWavBytes B r) 40 = B.length := by
  have hsplit := pcmToWavBytes_eq B r
  refine ⟨pcmToWavBytes_take44 B r, ?_, ?_, ?_, ?_⟩ <;> rw [hsplit]
  · exact readUint32LE_wavHeader_4 _ _ _ hn
  · exact readUint32LE_wavHeader_24 _ _ _ (by omega)
  · exact readUint32LE_wavHeader_28 _ _ _ hr
  · exact readUint32LE_wavHeader_40 _ _ _ (by omega)

/-- C4 witness: the header equalities evaluated on the concrete payload
`[1, 2]` at sample rate 24000. -/
theorem C4_header_bytes_witness :
    (pcmToWavBytes [1, 2] 24000).take 44 =
      asciiBytes "RIFF" ++ le32 34 ++ asciiBytes "WAVE" ++
        asciiBytes "fmt " ++ le32 16 ++ le16 1 ++ le16 1 ++ le32 24000 ++ le32 48000 ++
        le16 2 ++ le16 16 ++ asciiBytes "data" ++ le32 2
    ∧ readUint32LE (pcmToWavBytes [1, 2] 24000) 4 = 34
    ∧ readUint32LE (pcmToWavBytes [1, 2] 24000) 24 = 24000
    ∧ readUint32LE (pcmToWavBytes [1, 2] 24000) 28 = 48000
    ∧ readUint32LE (pcmToWavBytes [1, 2] 24000) 40 = 2 := by
  have h := C4_header_bytes [1, 2] 24000 (by decide) (by decide)
  simpa using h

/-- C2 counterexample: at the empty payload and the default sample rate, the
declared RIFF chunk size is 32, not `36 + dataLength = 36`, so the claimed
invariant `ChunkSize = 36 + dataLength` fails on the encoder's output. -/
theorem C2_chunkSize_counterexample :
    readUint32LE (pcmToWavBytes [] 24000) 4 = 32 ∧
      readUint32LE (pcmToWavBytes [] 24000) 4 ≠ 36 + ([] : List Nat).length := by
  exact ⟨by decide, by decide⟩

/-- C2 (amended): the encoder writes `ChunkSize = 32 + dataLength` — four
less than the canonical `36 + dataLength` — while the remaining claimed
invariants hold: `Subchunk2Size = dataLength`,
`ByteRate = sampleRate × BlockAlign` and
`BlockAlign = 2 = channels × bitsPerSample / 8`. -/
theorem C2_wav_invariant_amended (B : List Nat) (r : Nat)
    (hr : r * 2 < 4294967296) (hn : 32 + B.length < 4294967296) :
    readUint32LE (pcmToWavBytes B r) 4 = 32 + B.length
    ∧ readUint32LE (pcmToWavBytes B r) 40 = B.length
    ∧ readUint32LE (pcmToWavBytes B r) 28 = r * readUint16LE (pcmToWavBytes B r) 32
    ∧ readUint16LE (pcmToWavBytes B r) 32 = 1 * (16 / 8) := by
  have hsplit := pcmToWavBytes_eq B r
  have h32 : readUint16LE (pcmToWavBytes B r) 32 = 2 := by
    rw [hsplit]; exact readUint16LE_wavHeader_32 _ _ _
  refine ⟨?_, ?_, ?_, by rw [h32]⟩ <;> rw [hsplit]
  · exact readUint32LE_wavHeader_4 _ _ _ hn
  · exact readUint32LE_wavHeader_40 _ _ _ (by omega)
  · rw [← hsplit, h32, hsplit]; exact readUint32LE_wavHeader_28 _ _ _ hr

/-- C2 witness: the amended invariant evaluated on the concrete payload
`[1, 2]` at sample rate 24000. -/
theorem C2_wav_invariant_amended_witness :
    readUint32LE (pcmToWavBytes [1, 2] 24000) 4 = 34
    ∧ readUint32LE (pcmToWavBytes [1, 2] 24000) 40 = 2
    ∧ readUint32LE (pcmToWavBytes [1, 2] 24000) 28 =
        24000 * readUint16LE (pcmToWavBytes [1, 2] 24000) 32
    ∧ readUint16LE (pcmToWavBytes [1, 2] 24000) 32 = 1 * (16 / 8) := by
  have h := C2_wav_invariant_amended [1, 2] 24000 (by decide) (by decide)
  simpa using h

/-- C5: Encoder output size — for every sample rate and every base64 input
whose decoded byte sequence has length `N`, `pcmToWav` returns a blob of
exactly `44 + N` bytes. -/
theorem C5_output_size (s : String) (r : Nat) (v : Uint8ArrayView)
    (h : decodeBase64 s = some v) :
    (pcmToWav s r).map List.length = some (44 + v.length) := by
  rcases decodeBase64_full s v h with ⟨h0, hl⟩
  rw [pcmToWav_some s v r h, Option.map_some', length_pcmToWavBytes,
    viewBytes_full v h0 hl, hl]

/-- C5 witness: the base64 input `AAAA` decodes to three bytes and the blob
has 47 bytes. -/
theorem C5_output_size_witness :
    (pcmToWav "AAAA" 24000).map List.length = some 47 := by
  have h := C5_output_size "AAAA" 24000 ⟨[0, 0, 0], 0, 3⟩ (by decide)
  simpa using h

/-! ### Lemmas about the PCM normalizer -/

theorem setLoop_append_mid {α β : Type} (f : β → α) :
    ∀ (xs : List β) (pre rest : List α), rest.length = xs.length →
      setLoop f (pre ++ rest) pre.length xs = pre ++ xs.map f
  | [], pre, rest, h => by
    have hr : rest = [] := List.eq_nil_of_length_eq_zero h
    subst hr; rfl
  | x :: xs, pre, rest, h => by
    rcases rest with _ | ⟨r0, rest'⟩
    · simp at h
    · have hset : (pre ++ r0 :: rest').set pre.length (f x) = pre ++ f x :: rest' := by
        rw [List.set_append_right _ _ (le_refl _), Nat.sub_self, List.set_cons_zero]
      have hlen : pre.length + 1 = (pre ++ [f x]).length := by simp
      have happ : pre ++ f x :: rest' = (pre ++ [f x]) ++ rest' := by simp
      rw [setLoop, hset, hlen, happ,
        setLoop_append_mid f xs (pre ++ [f x]) rest' (by simpa using h)]
      simp

theorem setLoop_replicate {α β : Type} (f : β → α) (xs : List β) (d : α) :
    setLoop f (List.replicate xs.length d) 0 xs = xs.map f := by
  have h := setLoop_append_mid f xs [] (List.replicate xs.length d) (by simp)
  simpa using h

theorem length_int16sOfBuffer (l : List Nat) :
    (int16sOfBuffer l).length = l.length / 2 := by
  induction l using int16sOfBuffer.induct with
  | case1 => rfl
  | case2 _ => simp [int16sOfBuffer]
  | case3 b0 b1 rest ih => rw [int16sOfBuffer, List.length_cons, ih]; simp; omega

theorem toInt16_range (b0 b1 : Nat) :
    -32768 ≤ toInt16 b0 b1 ∧ toInt16 b0 b1 ≤ 32767 := by
  simp only [toInt16]
  split <;> constructor <;> omega

theorem int16sOfBuffer_range (l : List Nat) :
    ∀ x ∈ int16sOfBuffer l, -32768 ≤ x ∧ x ≤ 32767 := by
  induction l using int16sOfBuffer.induct with
  | case1 => intro x hx; cases hx
  | case2 _ => intro x hx; cases hx
  | case3 b0 b1 rest ih =>
    intro x hx
    rcases List.mem_cons.mp hx with h | h
    · subst h; exact toInt16_range b0 b1
    · exact ih x h

theorem toSample_range (x : Int) (h1 : -32768 ≤ x) (h2 : x ≤ 32767) :
    -1 ≤ toSample x ∧ toSample x < 1 := by
  constructor
  · rw [toSample, le_div_iff₀ (by norm_num : (0:ℚ) < 32768)]
    calc (-1 : ℚ) * 32768 = ((-32768 : Int) : ℚ) := by norm_num
    _ ≤ (x : ℚ) := by exact_mod_cast h1
  · rw [toSample, div_lt_iff₀ (by norm_num : (0:ℚ) < 32768)]
    calc (x : ℚ) ≤ ((32767 : Int) : ℚ) := by exact_mod_cast h2
    _ < 1 * 32768 := by norm_num

/-! ### Claims about the PCM normalizer -/

/-- C3 counterexample: on the odd-length byte sequence `[0]` the decoder does
raise an error — the `Int16Array` construction rejects the one-byte buffer —
instead of silently returning `floor(1/2) = 0` samples as claimed. -/
theorem C3_odd_length_counterexample :
    decodeAudioData ⟨[0], 0, 1⟩ = .error "RangeError" := rfl

/-- C3 (amended): for every byte sequence of odd length, `decodeAudioData`
raises an error (the platform rejects a 16-bit view of a buffer whose byte
length is not a multiple of 2); no silent truncation takes place. -/
theorem C3_odd_length_amended (v : Uint8ArrayView) (h : v.buffer.length % 2 = 1) :
    decodeAudioData v = .error "RangeError" := by
  rw [decodeAudioData, if_neg (by omega)]

/-- C3 witness: the amended statement applied to a three-byte input. -/
theorem C3_odd_length_amended_witness :
    decodeAudioData ⟨[0, 0, 0], 0, 3⟩ = .error "RangeError" :=
  C3_odd_length_amended ⟨[0, 0, 0], 0, 3⟩ (by decide)

/-- C6 counterexample: on the empty (even-length) byte sequence the
normalizer does not produce an empty sample buffer — the zero-length
`createBuffer` call is rejected and an error is raised. -/
theorem C6_empty_counterexample :
    decodeAudioData ⟨([] : List Nat), 0, 0⟩ = .error "NotSupportedError" := rfl

/-- C6 (amended): for every nonempty even-length byte sequence the normalizer
produces one output per 16-bit little-endian signed sample, each equal to
that sample divided by 32768 (so 0 maps to 0, -32768 to -1 and 32767 to
32767/32768), and every output lies in the interval [-1, 1); on the empty
sequence the decoder instead raises an error, the zero-length buffer
allocation being rejected. -/
theorem C6_normalization_amended (B : List Nat) (h2 : B.length % 2 = 0) (hne : B ≠ []) :
    decodeAudioData ⟨B, 0, B.length⟩ =
      .ok ⟨1, B.length / 2, 24000, (int16sOfBuffer B).map toSample⟩
    ∧ ∀ q ∈ (int16sOfBuffer B).map toSample, -1 ≤ q ∧ q < 1 := by
  constructor
  · have hlen0 : B.length ≠ 0 := by simpa using fun h => hne (List.eq_nil_of_length_eq_zero h)
    have hne2 : (int16sOfBuffer B).length ≠ 0 := by
      rw [length_int16sOfBuffer]; omega
    rw [decodeAudioData]
    simp only [if_pos h2, if_neg hne2]
    rw [setLoop_replicate, length_int16sOfBuffer]
  · intro q hq
    rcases List.mem_map.mp hq with ⟨x, hx, rfl⟩
    rcases int16sOfBuffer_range B x hx with ⟨hx1, hx2⟩
    exact toSample_range x hx1 hx2

/-- C6 witness: the samples 0, -32768 and 32767 (little-endian bytes
`[0,0]`, `[0,128]`, `[255,127]`) normalize to 0, -1 and 32767/32768. -/
theorem C6_normalization_amended_witness :
    decodeAudioData ⟨[0, 0, 0, 128, 255, 127], 0, 6⟩ =
      .ok ⟨1, 3, 24000, [0, -1, 32767 / 32768]⟩ := by
  have h := (C6_normalization_amended [0, 0, 0, 128, 255, 127] (by decide) (by decide)).1
  norm_num [int16sOfBuffer, toInt16, toSample] at h
  exact h

/-- C8: Fixed decoder output rate — every audio buffer `decodeAudioData`
returns is mono with the fixed sample rate 24000 Hz (the function takes no
sample-rate parameter at all, so the encoder's argument cannot influence
it). -/
theorem C8_fixed_rate (v : Uint8ArrayView) (buf : AudioBuffer)
    (h : decodeAudioData v = .ok buf) :
    buf.numberOfChannels = 1 ∧ buf.sampleRate = 24000 := by
  by_cases h1 : v.buffer.length % 2 = 0
  · by_cases h2 : (int16sOfBuffer v.buffer).length = 0
    · rw [decodeAudioData, if_pos h1, if_pos h2] at h; simp at h
    · rw [decodeAudioData, if_pos h1, if_neg h2] at h
      injection h with h
      subst h
      exact ⟨rfl, rfl⟩
  · rw [decodeAudioData, if_neg h1] at h; simp at h

/-- C8 witness: the two-byte input `[0, 0]` yields a mono buffer at 24000 Hz. -/
theorem C8_fixed_rate_witness :
    (⟨1, 1, 24000, [0]⟩ : AudioBuffer).numberOfChannels = 1 ∧
      (⟨1, 1, 24000, [0]⟩ : AudioBuffer).sampleRate = 24000 :=
  C8_fixed_rate ⟨[0, 0], 0, 2⟩ ⟨1, 1, 24000, [0]⟩
    (by norm_num [decodeAudioData, int16sOfBuffer, toInt16, setLoop, toSample])

/-- C10: Whole-buffer interpretation — `decodeAudioData` derives its samples
from the entire underlying buffer of the view it is given: the sample count
is `buffer.byteLength / 2`, which coincides with `view.length / 2` exactly
when the view spans its whole buffer, as every view produced by
`decodeBase64` does. -/
theorem C10_whole_buffer :
    (∀ (v : Uint8ArrayView) (buf : AudioBuffer), decodeAudioData v = .ok buf →
        buf.length = v.buffer.length / 2 ∧
          (v.byteOffset + v.length ≤ v.buffer.length →
            (buf.length = v.length / 2 ↔ v.byteOffset = 0 ∧ v.length = v.buffer.length)))
    ∧ ∀ (s : String) (v : Uint8ArrayView), decodeBase64 s = some v →
        v.byteOffset = 0 ∧ v.length = v.buffer.length := by
  constructor
  · intro v buf h
    by_cases hpar : v.buffer.length % 2 = 0
    · by_cases hzero : (int16sOfBuffer v.buffer).length = 0
      · rw [decodeAudioData, if_pos hpar, if_pos hzero] at h; simp at h
      · rw [decodeAudioData, if_pos hpar, if_neg hzero] at h
        injection h with h
        subst h
        have hlen : (int16sOfBuffer v.buffer).length = v.buffer.length / 2 :=
          length_int16sOfBuffer v.buffer
        refine ⟨hlen, fun hwf => ?_⟩
        dsimp only
        rw [hlen] at hzero ⊢
        constructor
        · intro hcoin; omega
        · rintro ⟨h0, hl⟩; rw [hl]
    · rw [decodeAudioData, if_neg hpar] at h; simp at h
  · exact fun s v h => decodeBase64_full s v h

/-- C10 witness: a two-byte view over a four-byte buffer yields four bytes
worth of samples (2, not 1), and `decodeBase64` always returns full-span
views. -/
theorem C10_whole_buffer_witness :
    (⟨1, 2, 24000, [0, 0]⟩ : AudioBuffer).length = ([0, 0, 0, 0] : List Nat).length / 2
    ∧ ((⟨[0], 0, 1⟩ : Uint8ArrayView).byteOffset = 0 ∧
        (⟨[0], 0, 1⟩ : Uint8ArrayView).length = (⟨[0], 0, 1⟩ : Uint8ArrayView).buffer.length) := by
  constructor
  · exact (C10_whole_buffer.1 ⟨[0, 0, 0, 0], 0, 2⟩ ⟨1, 2, 24000, [0, 0]⟩
      (by norm_num [decodeAudioData, int16sOfBuffer, toInt16, setLoop, toSample,
        show List.replicate 2 (0 : ℚ) = [0, 0] from rfl])).1
  · exact C10_whole_buffer.2 "AA" ⟨[0], 0, 1⟩ (by decide)

/-! ### Purity of the two transforms -/

theorem getD_append_length {α : Type} (l : List α) (x d : α) :
    (l ++ [x]).getD l.length d = x := by
  induction l with
  | nil => rfl
  | cons a t ih => simp

theorem set_append_length {α : Type} (l : List α) (x y : α) :
    (l ++ [x]).set l.length y = l ++ [y] := by
  rw [List.set_append_right _ _ (le_refl _), Nat.sub_self, List.set_cons_zero]

/-- Running the encoder against any heap returns the pure result and only
appends a fresh buffer to the heap. -/
theorem pcmToWavH_spec (w : World) (s : String) (r : Nat) :
    (pcmToWavH w s r).2 = pcmToWav s r ∧
      ∃ nb, (pcmToWavH w s r).1 = ⟨w.byteBufs ++ nb, w.floatBufs⟩ := by
  rcases hd : decodeBase64 s with _ | pv
  · exact ⟨by simp [pcmToWavH, pcmToWav, hd], ⟨[], by simp [pcmToWavH, hd]⟩⟩
  · have hbb : (writeByteBuf (allocByteBuf w (44 + (viewBytes pv).length)).1
        (allocByteBuf w (44 + (viewBytes pv).length)).2
        (wavFill (viewBytes pv) r)).byteBufs
        = w.byteBufs ++ [pcmToWavBytes (viewBytes pv) r] := by
      simp only [allocByteBuf, writeByteBuf]
      rw [getD_append_length, set_append_length]
      rfl
    have hfb : (writeByteBuf (allocByteBuf w (44 + (viewBytes pv).length)).1
        (allocByteBuf w (44 + (viewBytes pv).length)).2
        (wavFill (viewBytes pv) r)).floatBufs = w.floatBufs := rfl
    constructor
    · simp only [pcmToWavH, hd, readByteBuf]
      rw [hbb]
      simp only [allocByteBuf]
      rw [getD_append_length, pcmToWav_some s pv r hd]
    · refine ⟨[pcmToWavBytes (viewBytes pv) r], ?_⟩
      simp only [pcmToWavH, hd]
      rw [← hbb, ← hfb]

/-- Running the normalizer against any heap returns the pure result and only
appends a fresh channel buffer to the heap. -/
theorem decodeAudioDataH_spec (w : World) (v : Uint8ArrayView) :
    (decodeAudioDataH w v).2 = decodeAudioData v ∧
      ∃ nf, (decodeAudioDataH w v).1 = ⟨w.byteBufs, w.floatBufs ++ nf⟩ := by
  by_cases h1 : v.buffer.length % 2 = 0
  · by_cases h2 : (int16sOfBuffer v.buffer).length = 0
    · rw [decodeAudioDataH, decodeAudioData, if_pos h1, if_pos h1, if_pos h2, if_pos h2]
      exact ⟨rfl, ⟨[], by simp⟩⟩
    · rw [decodeAudioDataH, decodeAudioData, if_pos h1, if_pos h1, if_neg h2, if_neg h2]
      have hfb : (writeFloatBuf (allocFloatBuf w (int16sOfBuffer v.buffer).length).1
          (allocFloatBuf w (int16sOfBuffer v.buffer).length).2
          (fun chan => setLoop toSample chan 0 (int16sOfBuffer v.buffer))).floatBufs
          = w.floatBufs ++
              [setLoop toSample (List.replicate (int16sOfBuffer v.buffer).length 0) 0
                (int16sOfBuffer v.buffer)] := by
        simp only [allocFloatBuf, writeFloatBuf]
        rw [getD_append_length, set_append_length]
      have hbb : (writeFloatBuf (allocFloatBuf w (int16sOfBuffer v.buffer).length).1
          (allocFloatBuf w (int16sOfBuffer v.buffer).length).2
          (fun chan => setLoop toSample chan 0 (int16sOfBuffer v.buffer))).byteBufs
          = w.byteBufs := rfl
      constructor
      · simp only [readFloatBuf]
        rw [hfb]
        simp only [allocFloatBuf]
        rw [getD_append_length]
      · refine ⟨[setLoop toSample (List.replicate (int16sOfBuffer v.buffer).length 0) 0
          (int16sOfBuffer v.buffer)], ?_⟩
        rw [← hfb, ← hbb]
  · rw [decodeAudioDataH, decodeAudioData, if_neg h1, if_neg h1]
    exact ⟨rfl, ⟨[], by simp⟩⟩

/-- C9: Purity and determinism — run against an arbitrary heap of previously
allocated buffers, each function returns exactly its pure result (so equal
inputs give bit-for-bit equal outputs, independent of any surrounding state)
and changes the heap only by appending freshly allocated buffers, leaving
every pre-existing buffer untouched; hence concurrent or repeated calls
cannot affect each other's results. -/
theorem C9_purity (w : World) (s : String) (r : Nat) (v : Uint8ArrayView) :
    (pcmToWavH w s r).2 = pcmToWav s r
    ∧ (∃ nb, (pcmToWavH w s r).1 = ⟨w.byteBufs ++ nb, w.floatBufs⟩)
    ∧ (decodeAudioDataH w v).2 = decodeAudioData v
    ∧ (∃ nf, (decodeAudioDataH w v).1 = ⟨w.byteBufs, w.floatBufs ++ nf⟩) :=
  ⟨(pcmToWavH_spec w s r).1, (pcmToWavH_spec w s r).2,
    (decodeAudioDataH_spec w v).1, (decodeAudioDataH_spec w v).2⟩

/-! ### The base64 decoder's failure characterization -/

theorem atob_eq (s : String) :
    atob s = if (b64Cleaned s).length % 4 = 1 then none
      else (mapB64 (b64Cleaned s)).bind b64DecodeIndices := rfl

theorem b64Index_lt (c : Char) (i : Nat) (h : b64Index c = some i) : i < 64 := by
  rw [b64Index] at h
  split_ifs at h with h1 h2 h3 h4 h5 <;> injection h with h <;> omega

theorem mapB64_eq_none_iff (l : List Char) :
    mapB64 l = none ↔ ∃ c ∈ l, b64Index c = none := by
  induction l with
  | nil => simp [mapB64]
  | cons c cs ih =>
    rw [mapB64]
    rcases hc : b64Index c with _ | i
    · exact iff_of_true rfl ⟨c, List.mem_cons_self c cs, hc⟩
    · rw [Option.some_bind]
      rcases hm : mapB64 cs with _ | is
      · rw [hm] at ih
        rw [Option.map_none']
        refine iff_of_true rfl ?_
        rcases ih.mp rfl with ⟨c', hc', hn⟩
        exact ⟨c', List.mem_cons_of_mem _ hc', hn⟩
      · rw [hm] at ih
        rw [Option.map_some']
        constructor
        · intro h; cases h
        · rintro ⟨c', hmem, hnone⟩
          rcases List.mem_cons.mp hmem with rfl | hmem'
          · rw [hc] at hnone; cases hnone
          · cases ih.mpr ⟨c', hmem', hnone⟩

theorem mapB64_length : ∀ (l : List Char) (is : List Nat),
    mapB64 l = some is → is.length = l.length
  | [], is, h => by
    rw [mapB64] at h; cases h; rfl
  | c :: cs, is, h => by
    rw [mapB64] at h
    rcases hc : b64Index c with _ | i
    · rw [hc, Option.none_bind] at h; cases h
    · rw [hc, Option.some_bind] at h
      rcases hm : mapB64 cs with _ | is'
      · rw [hm, Option.map_none'] at h; cases h
      · rw [hm, Option.map_some'] at h
        cases h
        rw [List.length_cons, List.length_cons, mapB64_length cs is' hm]

theorem mapB64_lt : ∀ (l : List Char) (is : List Nat),
    mapB64 l = some is → ∀ i ∈ is, i < 64
  | [], is, h => by
    rw [mapB64] at h; cases h; intro i hi; cases hi
  | c :: cs, is, h => by
    rw [mapB64] at h
    rcases hc : b64Index c with _ | i0
    · rw [hc, Option.none_bind] at h; cases h
    · rw [hc, Option.some_bind] at h
      rcases hm : mapB64 cs with _ | is'
      · rw [hm, Option.map_none'] at h; cases h
      · rw [hm, Option.map_some'] at h
        cases h
        intro i hi
        rcases List.mem_cons.mp hi with rfl | hi'
        · exact b64Index_lt c i hc
        · exact mapB64_lt cs is' hm i hi'

theorem b64DecodeIndices_isSome : ∀ li : List Nat, li.length % 4 ≠ 1 →
    ∃ bs, b64DecodeIndices li = some bs := by
  intro li
  induction li using b64DecodeIndices.induct with
  | case1 => exact fun _ => ⟨[], rfl⟩
  | case2 x => intro h; simp at h
  | case3 a b => exact fun _ => ⟨_, rfl⟩
  | case4 a b c => exact fun _ => ⟨_, rfl⟩
  | case5 a b c d rest ih =>
    intro h
    simp only [List.length_cons] at h
    rcases ih (by omega) with ⟨bs, hbs⟩
    exact ⟨_, by rw [b64DecodeIndices, hbs, Option.map_some']⟩

theorem b64DecodeIndices_lt256 : ∀ (li : List Nat) (bs : List Nat),
    (∀ i ∈ li, i < 64) → b64DecodeIndices li = some bs → ∀ b ∈ bs, b < 256 := by
  intro li
  induction li using b64DecodeIndices.induct with
  | case1 => intro bs _ h b hb; cases h; cases hb
  | case2 x => intro bs _ h; cases h
  | case3 a b =>
    intro bs hlt h x hx
    cases h
    have ha := hlt a (by simp)
    have hb := hlt b (by simp)
    simp only [List.mem_singleton] at hx
    omega
  | case4 a b c =>
    intro bs hlt h x hx
    cases h
    have ha := hlt a (by simp)
    have hb := hlt b (by simp)
    have hc := hlt c (by simp)
    simp only [List.mem_cons, List.mem_singleton, List.not_mem_nil, or_false] at hx
    rcases hx with h' | h' <;> omega
  | case5 a b c d rest ih =>
    intro bs hlt h x hx
    rw [b64DecodeIndices] at h
    rcases hr : b64DecodeIndices rest with _ | tl
    · rw [hr] at h; cases h
    · rw [hr, Option.map_some'] at h
      cases h
      have ha := hlt a (by simp)
      have hb := hlt b (by simp)
      have hc := hlt c (by simp)
      have hd := hlt d (by simp)
      rcases List.mem_cons.mp hx with h' | hx
      · omega
      rcases List.mem_cons.mp hx with h' | hx
      · omega
      rcases List.mem_cons.mp hx with h' | hx
      · omega
      exact ih tl (fun i hi => hlt i (by simp [hi])) hr x hx

theorem atob_lt256 (s : String) (l : List Nat) (h : atob s = some l) :
    ∀ b ∈ l, b < 256 := by
  rw [atob_eq] at h
  by_cases h4 : (b64Cleaned s).length % 4 = 1
  · rw [if_pos h4] at h; cases h
  · rw [if_neg h4] at h
    rcases hm : mapB64 (b64Cleaned s) with _ | idxs
    · rw [hm, Option.none_bind] at h; cases h
    · rw [hm, Option.some_bind] at h
      exact b64DecodeIndices_lt256 idxs l (mapB64_lt _ idxs hm) h

theorem map_mod256_eq_self (l : List Nat) (h : ∀ b ∈ l, b < 256) :
    l.map (fun code => code % 256) = l := by
  induction l with
  | nil => rfl
  | cons b t ih =>
    rw [List.map_cons, Nat.mod_eq_of_lt (h b (by simp)),
      ih (fun x hx => h x (by simp [hx]))]

/-- Whenever the platform decoder succeeds, `decodeBase64` returns exactly
its bytes, as a fresh full-span array of the same length. -/
theorem decodeBase64_of_atob (s : String) (l : List Nat) (h : atob s = some l) :
    decodeBase64 s = some ⟨l, 0, l.length⟩ := by
  rw [decodeBase64, h, Option.map_some', setLoop_replicate,
    map_mod256_eq_self l (atob_lt256 s l h)]

/-- C7 counterexample: the string `AAAAA` contains only characters of the
base64 alphabet, yet `decodeBase64` fails on it (its length is 1 mod 4), so
"fails precisely when the input contains characters outside the base64
alphabet" does not hold. -/
theorem C7_alphabet_counterexample :
    (∀ c ∈ "AAAAA".data, b64Index c ≠ none) ∧ decodeBase64 "AAAAA" = none := by
  exact ⟨by decide, by decide⟩

/-- C7 (amended): `decodeBase64` is lossless and pure — whenever the platform
decoder succeeds it returns exactly the decoded byte sequence, byte `i` being
character code `i` of the platform-decoded binary string, with equal lengths —
and it fails exactly when the platform decoder throws, which happens
precisely when the whitespace-stripped, padding-stripped data has length
`≡ 1 (mod 4)` or still contains a character outside the base64 alphabet. -/
theorem C7_decode_contract_amended (s : String) :
    (∀ l, atob s = some l → decodeBase64 s = some ⟨l, 0, l.length⟩)
    ∧ (decodeBase64 s = none ↔ atob s = none)
    ∧ (atob s = none ↔
        ((b64Cleaned s).length % 4 = 1 ∨ ∃ c ∈ b64Cleaned s, b64Index c = none)) := by
  refine ⟨fun l h => decodeBase64_of_atob s l h, ?_, ?_⟩
  · rw [decodeBase64, Option.map_eq_none']
  · rw [atob_eq]
    by_cases h4 : (b64Cleaned s).length % 4 = 1
    · simp [h4]
    · rw [if_neg h4]
      rcases hm : mapB64 (b64Cleaned s) with _ | idxs
      · exact iff_of_true rfl (Or.inr ((mapB64_eq_none_iff _).mp hm))
      · have hlen : idxs.length % 4 ≠ 1 := by
          rw [mapB64_length _ idxs hm]; exact h4
        rcases b64DecodeIndices_isSome idxs hlen with ⟨bs, hbs⟩
        rw [Option.some_bind, hbs]
        simp only [h4, false_or]
        constructor
        · intro h; cases h
        · intro hex
          cases ((mapB64_eq_none_iff _).mpr hex).symm.trans hm

/-- C7 witness: the valid input `QUJD` decodes losslessly to `[65, 66, 67]`
(`ABC`), and the failure characterization evaluated at `QUJD` agrees. -/
theorem C7_decode_contract_amended_witness :
    decodeBase64 "QUJD" = some ⟨[65, 66, 67], 0, 3⟩ :=
  (C7_decode_contract_amended "QUJD").1 [65, 66, 67] (by decide)

/-! ### Decoding inverts the standard encoding -/

theorem b64Index_b64Char : ∀ i < 64, b64Index (b64Char i) = some i := by decide

theorem b64Char_ne_pad : ∀ i < 64, b64Char i ≠ '=' := by decide

theorem b64Char_not_ws : ∀ i < 64, isB64Ws (b64Char i) = false := by decide

theorem dropLeadingEq_cons_ne (c : Char) (t : List Char) (h : ¬c = '=') :
    dropLeadingEq (c :: t) = c :: t := by
  cases t with
  | nil => rw [dropLeadingEq, if_neg h]
  | cons c2 t2 => rw [dropLeadingEq, if_neg h]

theorem dropTrailingEq_of_not_mem (l : List Char) (h : '=' ∉ l) :
    dropTrailingEq l = l := by
  rw [dropTrailingEq]
  rcases hr : l.reverse with _ | ⟨c1, t⟩
  · rw [dropLeadingEq, ← hr, List.reverse_reverse]
  · have hc1 : ¬c1 = '=' := by
      intro he
      exact h (by rw [← List.mem_reverse, hr, he]; exact List.mem_cons_self _ _)
    rw [dropLeadingEq_cons_ne c1 t hc1, ← hr, List.reverse_reverse]

theorem dropLeadingEq_append_last (ys : List Char) (x : Char) (h : 2 ≤ ys.length) :
    dropLeadingEq (ys ++ [x]) = dropLeadingEq ys ++ [x] := by
  rcases ys with _ | ⟨c1, _ | ⟨c2, t⟩⟩
  · simp at h
  · simp at h
  · show dropLeadingEq (c1 :: c2 :: (t ++ [x])) = dropLeadingEq (c1 :: c2 :: t) ++ [x]
    rw [dropLeadingEq, dropLeadingEq]
    by_cases h1 : c1 = '='
    · by_cases h2 : c2 = '='
      · rw [if_pos h1, if_pos h2, if_pos h1, if_pos h2]
      · rw [if_pos h1, if_neg h2, if_pos h1, if_neg h2, List.cons_append]
    · rw [if_neg h1, if_neg h1]
      simp

theorem dropTrailingEq_cons (x : Char) (l : List Char) (h : 2 ≤ l.length) :
    dropTrailingEq (x :: l) = x :: dropTrailingEq l := by
  rw [dropTrailingEq, dropTrailingEq, List.reverse_cons,
    dropLeadingEq_append_last l.reverse x (by rw [List.length_reverse]; exact h),
    List.reverse_append]
  rfl

theorem dropTrailingEq_append (c4 s : List Char) (hne : '=' ∉ c4)
    (hs : s = [] ∨ 2 ≤ s.length) :
    dropTrailingEq (c4 ++ s) = c4 ++ dropTrailingEq s := by
  rcases hs with rfl | hs
  · rw [List.append_nil, dropTrailingEq_of_not_mem c4 hne,
      show dropTrailingEq [] = [] from rfl, List.append_nil]
  · induction c4 with
    | nil => simp
    | cons x c4' ih =>
      have h2 : 2 ≤ (c4' ++ s).length := by
        rw [List.length_append]; omega
      rw [List.cons_append, dropTrailingEq_cons x _ h2,
        ih (fun hm => hne (List.mem_cons_of_mem _ hm)), List.cons_append]

theorem dropLeadingEq_length (ys : List Char) :
    (dropLeadingEq ys).length ≤ ys.length ∧ ys.length ≤ (dropLeadingEq ys).length + 2 := by
  rcases ys with _ | ⟨c1, _ | ⟨c2, t⟩⟩
  · simp [dropLeadingEq]
  · rw [dropLeadingEq]
    split_ifs <;> simp
  · rw [dropLeadingEq]
    split_ifs <;> simp <;> omega

theorem dropTrailingEq_length (l : List Char) :
    (dropTrailingEq l).length ≤ l.length ∧ l.length ≤ (dropTrailingEq l).length + 2 := by
  have h := dropLeadingEq_length l.reverse
  rw [dropTrailingEq, List.length_reverse]
  rw [List.length_reverse] at h
  exact h

theorem b64EncodeChunks_length_mod (B : List Nat) :
    (b64EncodeChunks B).length % 4 = 0 := by
  induction B using b64EncodeChunks.induct with
  | case1 => rfl
  | case2 b0 => simp [b64EncodeChunks]
  | case3 b0 b1 => simp [b64EncodeChunks]
  | case4 b0 b1 b2 rest ih =>
    rw [b64EncodeChunks]
    simp only [List.length_cons]
    omega

theorem b64EncodeChunks_nil_or_four (B : List Nat) :
    b64EncodeChunks B = [] ∨ 4 ≤ (b64EncodeChunks B).length := by
  induction B using b64EncodeChunks.induct with
  | case1 => exact Or.inl rfl
  | case2 b0 => exact Or.inr (by rw [b64EncodeChunks]; simp)
  | case3 b0 b1 => exact Or.inr (by rw [b64EncodeChunks]; simp)
  | case4 b0 b1 b2 rest ih =>
    exact Or.inr (by rw [b64EncodeChunks]; simp only [List.length_cons]; omega)

theorem b64EncodeChunks_chars (B : List Nat) (hB : ∀ b ∈ B, b < 256) :
    ∀ c ∈ b64EncodeChunks B, (∃ i, i < 64 ∧ c = b64Char i) ∨ c = '=' := by
  induction B using b64EncodeChunks.induct with
  | case1 => intro c hc; cases hc
  | case2 b0 =>
    have h0 : b0 < 256 := hB b0 (by simp)
    intro c hc
    rw [b64EncodeChunks] at hc
    simp only [List.mem_cons, List.not_mem_nil, or_false] at hc
    rcases hc with rfl | rfl | rfl | rfl
    · exact Or.inl ⟨b0 / 4, by omega, rfl⟩
    · exact Or.inl ⟨b0 % 4 * 16, by omega, rfl⟩
    · exact Or.inr rfl
    · exact Or.inr rfl
  | case3 b0 b1 =>
    have h0 : b0 < 256 := hB b0 (by simp)
    have h1 : b1 < 256 := hB b1 (by simp)
    intro c hc
    rw [b64EncodeChunks] at hc
    simp only [List.mem_cons, List.not_mem_nil, or_false] at hc
    rcases hc with rfl | rfl | rfl | rfl
    · exact Or.inl ⟨b0 / 4, by omega, rfl⟩
    · exact Or.inl ⟨b0 % 4 * 16 + b1 / 16, by omega, rfl⟩
    · exact Or.inl ⟨b1 % 16 * 4, by omega, rfl⟩
    · exact Or.inr rfl
  | case4 b0 b1 b2 rest ih =>
    have h0 : b0 < 256 := hB b0 (by simp)
    have h1 : b1 < 256 := hB b1 (by simp)
    have h2 : b2 < 256 := hB b2 (by simp)
    intro c hc
    rw [b64EncodeChunks] at hc
    rcases List.mem_cons.mp hc with rfl | hc
    · exact Or.inl ⟨b0 / 4, by omega, rfl⟩
    rcases List.mem_cons.mp hc with rfl | hc
    · exact Or.inl ⟨b0 % 4 * 16 + b1 / 16, by omega, rfl⟩
    rcases List.mem_cons.mp hc with rfl | hc
    · exact Or.inl ⟨b1 % 16 * 4 + b2 / 64, by omega, rfl⟩
    rcases List.mem_cons.mp hc with rfl | hc
    · exact Or.inl ⟨b2 % 64, by omega, rfl⟩
    exact ih (fun b hb => hB b (by simp [hb])) c hc

theorem filter_not_ws_encode (B : List Nat) (hB : ∀ b ∈ B, b < 256) :
    (b64EncodeChunks B).filter (fun c => !(isB64Ws c)) = b64EncodeChunks B := by
  rw [List.filter_eq_self]
  intro c hc
  rcases b64EncodeChunks_chars B hB c hc with ⟨i, hi, rfl⟩ | rfl
  · simp [b64Char_not_ws i hi]
  · decide

theorem b64DecodeIndices_cons4 (a b c d : Nat) (rest : List Nat) :
    b64DecodeIndices (a :: b :: c :: d :: rest) =
      (b64DecodeIndices rest).map
        (fun tl => (a * 4 + b / 16) :: (b % 16 * 16 + c / 4) :: (c % 4 * 64 + d) :: tl) := rfl

/-- Steps 3-5 of forgiving-base64 invert the standard encoder: mapping the
unpadded encoding of `B` to indices and decoding the index groups gives back
exactly `B`. -/
theorem midDecode_encode : ∀ B : List Nat, (∀ b ∈ B, b < 256) →
    (mapB64 (dropTrailingEq (b64EncodeChunks B))).bind b64DecodeIndices = some B := by
  intro B
  induction B using b64EncodeChunks.induct with
  | case1 => intro _; rfl
  | case2 b0 =>
    intro hB
    have h0 : b0 < 256 := hB b0 (by simp)
    have hd : dropTrailingEq (b64EncodeChunks [b0]) =
        [b64Char (b0 / 4), b64Char (b0 % 4 * 16)] := rfl
    rw [hd]
    simp only [mapB64, b64Index_b64Char _ (show b0 / 4 < 64 by omega),
      b64Index_b64Char _ (show b0 % 4 * 16 < 64 by omega), Option.some_bind,
      Option.map_some', b64DecodeIndices, Option.some.injEq, List.cons.injEq, and_true]
    omega
  | case3 b0 b1 =>
    intro hB
    have h0 : b0 < 256 := hB b0 (by simp)
    have h1 : b1 < 256 := hB b1 (by simp)
    have hne : ¬b64Char (b1 % 16 * 4) = '=' := b64Char_ne_pad _ (by omega)
    have hd : dropTrailingEq (b64EncodeChunks [b0, b1]) =
        [b64Char (b0 / 4), b64Char (b0 % 4 * 16 + b1 / 16), b64Char (b1 % 16 * 4)] := by
      show (dropLeadingEq ([b64Char (b0 / 4), b64Char (b0 % 4 * 16 + b1 / 16),
        b64Char (b1 % 16 * 4), '='].reverse)).reverse = _
      simp only [List.reverse_cons, List.reverse_nil, List.nil_append,
        List.cons_append, List.singleton_append]
      rw [dropLeadingEq, if_pos rfl, if_neg hne]
      simp
    rw [hd]
    simp only [mapB64, b64Index_b64Char _ (show b0 / 4 < 64 by omega),
      b64Index_b64Char _ (show b0 % 4 * 16 + b1 / 16 < 64 by omega),
      b64Index_b64Char _ (show b1 % 16 * 4 < 64 by omega), Option.some_bind,
      Option.map_some', b64DecodeIndices, Option.some.injEq, List.cons.injEq, and_true]
    omega
  | case4 b0 b1 b2 rest ih =>
    intro hB
    have h0 : b0 < 256 := hB b0 (by simp)
    have h1 : b1 < 256 := hB b1 (by simp)
    have h2 : b2 < 256 := hB b2 (by simp)
    have hB' : ∀ b ∈ rest, b < 256 := fun b hb => hB b (by simp [hb])
    have hne : '=' ∉ [b64Char (b0 / 4), b64Char (b0 % 4 * 16 + b1 / 16),
        b64Char (b1 % 16 * 4 + b2 / 64), b64Char (b2 % 64)] := by
      intro hm
      simp only [List.mem_cons, List.not_mem_nil, or_false] at hm
      rcases hm with h' | h' | h' | h'
      · exact b64Char_ne_pad _ (by omega) h'.symm
      · exact b64Char_ne_pad _ (by omega) h'.symm
      · exact b64Char_ne_pad _ (by omega) h'.symm
      · exact b64Char_ne_pad _ (by omega) h'.symm
    have hs : b64EncodeChunks rest = [] ∨ 2 ≤ (b64EncodeChunks rest).length := by
      rcases b64EncodeChunks_nil_or_four rest with h | h
      · exact Or.inl h
      · exact Or.inr (by omega)
    have hd : dropTrailingEq (b64EncodeChunks (b0 :: b1 :: b2 :: rest)) =
        b64Char (b0 / 4) :: b64Char (b0 % 4 * 16 + b1 / 16) ::
          b64Char (b1 % 16 * 4 + b2 / 64) :: b64Char (b2 % 64) ::
            dropTrailingEq (b64EncodeChunks rest) := by
      rw [b64EncodeChunks,
        show (b64Char (b0 / 4) :: b64Char (b0 % 4 * 16 + b1 / 16) ::
          b64Char (b1 % 16 * 4 + b2 / 64) :: b64Char (b2 % 64) ::
            b64EncodeChunks rest)
          = [b64Char (b0 / 4), b64Char (b0 % 4 * 16 + b1 / 16),
              b64Char (b1 % 16 * 4 + b2 / 64), b64Char (b2 % 64)] ++
            b64EncodeChunks rest from rfl,
        dropTrailingEq_append _ _ hne hs]
      rfl
    rw [hd]
    rw [mapB64, b64Index_b64Char _ (show b0 / 4 < 64 by omega), Option.some_bind,
      mapB64, b64Index_b64Char _ (show b0 % 4 * 16 + b1 / 16 < 64 by omega), Option.some_bind,
      mapB64, b64Index_b64Char _ (show b1 % 16 * 4 + b2 / 64 < 64 by omega), Option.some_bind,
      mapB64, b64Index_b64Char _ (show b2 % 64 < 64 by omega), Option.some_bind]
    have hIH := ih hB'
    rcases hm : mapB64 (dropTrailingEq (b64EncodeChunks rest)) with _ | idxs
    · rw [hm, Option.none_bind] at hIH
      cases hIH
    · rw [hm, Option.some_bind] at hIH
      simp only [Option.map_some', Option.some_bind, b64DecodeIndices_cons4, hIH]
      have e0 : b0 / 4 * 4 + (b0 % 4 * 16 + b1 / 16) / 16 = b0 := by omega
      have e1 : (b0 % 4 * 16 + b1 / 16) % 16 * 16 + (b1 % 16 * 4 + b2 / 64) / 4 = b1 := by
        omega
      have e2 : (b1 % 16 * 4 + b2 / 64) % 4 * 64 + b2 % 64 = b2 := by omega
      rw [e0, e1, e2]

/-- The platform decoder inverts the standard base64 encoding: `atob` on the
padded encoding of any byte sequence returns exactly that sequence. -/
theorem atob_base64Encode (B : List Nat) (hB : ∀ b ∈ B, b < 256) :
    atob (base64Encode B) = some B := by
  have hclean : b64Cleaned (base64Encode B) = dropTrailingEq (b64EncodeChunks B) := by
    show (let data0 := (b64EncodeChunks B).filter (fun c => !(isB64Ws c))
      if data0.length % 4 = 0 then dropTrailingEq data0 else data0) = _
    rw [filter_not_ws_encode B hB]
    rw [if_pos (b64EncodeChunks_length_mod B)]
  have hlen1 : (b64Cleaned (base64Encode B)).length % 4 ≠ 1 := by
    rw [hclean]
    have hb := dropTrailingEq_length (b64EncodeChunks B)
    have hm := b64EncodeChunks_length_mod B
    omega
  rw [atob_eq, if_neg hlen1, hclean]
  exact midDecode_encode B hB

/-- C1: Payload round-trip — for every byte sequence `B` of even length,
the bytes at offsets 44 onward of the blob `pcmToWav` produces on the
standard base64 encoding of `B` are exactly `B`, unmodified: decoding the
WAV container's payload yields the original PCM bytes. -/
theorem C1_payload_roundtrip (B : List Nat) (r : Nat) (hB : ∀ b ∈ B, b < 256)
    (hEven : B.length % 2 = 0) :
    (pcmToWav (base64Encode B) r).map (fun blob => blob.drop 44) = some B := by
  have hD := decodeBase64_of_atob (base64Encode B) B (atob_base64Encode B hB)
  rw [pcmToWav_some (base64Encode B) ⟨B, 0, B.length⟩ r hD, Option.map_some',
    viewBytes_full ⟨B, 0, B.length⟩ rfl rfl, pcmToWavBytes_drop44]

/-- C1 witness: the two bytes `[1, 2]` round-trip through base64 encoding
and the WAV container. -/
theorem C1_payload_roundtrip_witness :
    (pcmToWav (base64Encode [1, 2]) 8000).map (fun blob => blob.drop 44) = some [1, 2] :=
  C1_payload_roundtrip [1, 2] 8000 (by decide) (by decide)

end Starlight
